import Mathlib

/-!
Verification of the numerical options-pricing engine of the option-analyzer
repository: Black-Scholes pricing, implied-volatility inversion, vectorized
Greeks, chain aggregation and the metrics/sentiment calculator.

The Python code computes with floats and numpy/scipy/pandas.  The shallow
embedding models numbers as exact rationals and keeps the transcendental
primitives (natural log, exp, square root, standard-normal CDF and PDF)
abstract, bundled in a `RealPrims` record: every theorem quantifies over the
primitives (adding only the properties a claim needs, e.g. that the CDF has
range inside [0, 1]).  The scipy bounded minimizer is likewise kept abstract
as an `Optimizer` that either returns a point of the search interval or
fails; theorems that need it assume only its documented contract (a returned
point lies inside the bounds).
-/

/-- Abstract numerical primitives: natural logarithm, exponential, square
root, standard-normal cumulative distribution function and density. -/
structure RealPrims where
  log : ℚ → ℚ
  exp : ℚ → ℚ
  sqrt : ℚ → ℚ
  cdf : ℚ → ℚ
  pdf : ℚ → ℚ

/-- Black-Scholes auxiliary term `d1`, as computed in
`black_scholes_price` and `calculate_greeks_vectorized`
(src/calculations/greeks.py):
`d1 = (log(spot/strike) + (r + 0.5*vol^2)*t) / (vol*sqrt(t))`. -/
def d1 (P : RealPrims) (volatility spot strike t r : ℚ) : ℚ :=
  (P.log (spot / strike) + (r + 1/2 * volatility ^ 2) * t) / (volatility * P.sqrt t)

/-- Black-Scholes auxiliary term `d2 = d1 - vol*sqrt(t)`. -/
def d2 (P : RealPrims) (volatility spot strike t r : ℚ) : ℚ :=
  d1 P volatility spot strike t r - volatility * P.sqrt t

/-- Embedding of `black_scholes_price` (src/calculations/greeks.py, lines
10-25).  The guard `t <= 0 or volatility <= 0` returns 0; otherwise the
closed form is computed, the Call branch when `option_type == 'Call'` and
the Put form on the else branch. -/
def black_scholes_price (P : RealPrims) (volatility : ℚ) (option_type : String)
    (spot strike t r : ℚ) : ℚ :=
  if t ≤ 0 ∨ volatility ≤ 0 then 0
  else if option_type = "Call" then
    spot * P.cdf (d1 P volatility spot strike t r) -
      strike * P.exp (-(r * t)) * P.cdf (d2 P volatility spot strike t r)
  else
    strike * P.exp (-(r * t)) * P.cdf (-(d2 P volatility spot strike t r)) -
      spot * P.cdf (-(d1 P volatility spot strike t r))

/-- Abstract bounded scalar minimizer: takes the objective and the two
interval bounds, returns a point or fails (`none` models any exception
raised inside `scipy.optimize.minimize_scalar`). -/
def Optimizer : Type := (ℚ → ℚ) → ℚ → ℚ → Option ℚ

/-- Contract of `scipy.optimize.minimize_scalar(..., bounds=(lo, hi),
method='bounded')`: when it succeeds, the returned abscissa lies inside the
given bounds. -/
def OptimizerBounded (opt : Optimizer) : Prop :=
  ∀ f lo hi x, opt f lo hi = some x → lo ≤ x ∧ x ≤ hi

/-- Embedding of `calculate_iv` (src/calculations/greeks.py, lines 27-39):
guard on non-positive `t`, market price, spot or strike returning 0, then a
bounded minimization of `|black_scholes_price(vol, ...) - market_price|`
over [0.001, 5.0]; an optimizer failure is mapped to 0. -/
def calculate_iv (opt : Optimizer) (P : RealPrims) (option_type : String)
    (spot strike market_price t r : ℚ) : ℚ :=
  if t ≤ 0 ∨ market_price ≤ 0 ∨ spot ≤ 0 ∨ strike ≤ 0 then 0
  else
    match opt (fun vol =>
        |black_scholes_price P vol option_type spot strike t r - market_price|)
        (1/1000) 5 with
    | some x => x
    | none => 0

/-- One output row of the vectorized Greeks computation. -/
structure GreekRow where
  delta : ℚ
  gamma : ℚ
  vega : ℚ
  theta : ℚ
  rho : ℚ
deriving DecidableEq

/-- The all-zero Greeks row, the default every output row starts from. -/
def GreekRow.zero : GreekRow := ⟨0, 0, 0, 0, 0⟩

/-- Round-half-to-even to an integer, the rounding used by `numpy.round`
and Python's built-in `round`. -/
def roundHE (x : ℚ) : ℤ :=
  if x - Int.floor x < 1/2 then Int.floor x
  else if 1/2 < x - Int.floor x then Int.floor x + 1
  else if Int.floor x % 2 = 0 then Int.floor x else Int.floor x + 1

/-- Round-half-to-even at `n` decimal places (`DataFrame.round(n)`,
`round(x, n)`). -/
def roundDp (n : ℕ) (x : ℚ) : ℚ := (roundHE (x * 10 ^ n) : ℚ) / 10 ^ n

/-- Fieldwise `round(4)` of a Greeks row (`results.round(4)`). -/
def roundRow (g : GreekRow) : GreekRow :=
  ⟨roundDp 4 g.delta, roundDp 4 g.gamma, roundDp 4 g.vega,
   roundDp 4 g.theta, roundDp 4 g.rho⟩

/-- The Greeks closed forms applied to one valid (iv, strike) pair, exactly
as in the masked block of `calculate_greeks_vectorized`
(src/calculations/greeks.py, lines 59-74). -/
def greeksFormula (P : RealPrims) (option_type : String)
    (spot iv strike t r : ℚ) : GreekRow :=
  let e1 := d1 P iv spot strike t r
  let e2 := d2 P iv spot strike t r
  let gamma := P.pdf e1 / (spot * iv * P.sqrt t)
  let vega := spot * P.pdf e1 * P.sqrt t / 100
  if option_type = "Call" then
    { delta := P.cdf e1
      gamma := gamma
      vega := vega
      theta := (-spot * P.pdf e1 * iv / (2 * P.sqrt t) -
                r * strike * P.exp (-(r * t)) * P.cdf e2) / 365
      rho := strike * t * P.exp (-(r * t)) * P.cdf e2 / 100 }
  else
    { delta := P.cdf e1 - 1
      gamma := gamma
      vega := vega
      theta := (-spot * P.pdf e1 * iv / (2 * P.sqrt t) +
                r * strike * P.exp (-(r * t)) * P.cdf (-e2)) / 365
      rho := -strike * t * P.exp (-(r * t)) * P.cdf (-e2) / 100 }

/-- Validity mask of one (iv, strike) pair at time `t`:
`(iv > 0) & (t > 0) & (strike > 0)` (src/calculations/greeks.py, line 51). -/
def validPair (iv t strike : ℚ) : Prop := 0 < iv ∧ 0 < t ∧ 0 < strike

instance (iv t strike : ℚ) : Decidable (validPair iv t strike) := by
  unfold validPair; infer_instance

/-- Embedding of `calculate_greeks_vectorized` (src/calculations/greeks.py,
lines 41-84).  The code builds an all-zero table indexed by
`range(len(strikes))`, computes the closed forms only on the masked
(valid) subarrays, scatters them back into the table and rounds to 4
decimals.  Elementwise this is: position `i` holds the rounded closed form
when pair `i` is valid and the (rounded) zero row otherwise; invalid pairs
never reach the formula.  The embedding is stated for the equal-length
case: with unequal lengths the numpy mask computation raises before any
row is produced. -/
def calculate_greeks_vectorized (P : RealPrims) (iv_array : List ℚ)
    (option_type : String) (spot : ℚ) (strikes : List ℚ) (t r : ℚ) :
    List GreekRow :=
  (iv_array.zip strikes).map (fun p =>
    if validPair p.1 t p.2 then
      roundRow (greeksFormula P option_type spot p.1 p.2 t r)
    else roundRow GreekRow.zero)

/-- Round-half-to-even returns the floor or the floor plus one, the latter
only when the argument exceeds its floor. -/
theorem roundHE_cases (x : ℚ) :
    roundHE x = Int.floor x ∨
      (roundHE x = Int.floor x + 1 ∧ (Int.floor x : ℚ) < x) := by
  unfold roundHE
  split_ifs with h1 h2 h3
  · exact Or.inl rfl
  · exact Or.inr ⟨rfl, by linarith⟩
  · exact Or.inl rfl
  · exact Or.inr ⟨rfl, by push_neg at h1; linarith⟩

/-- Round-half-to-even of a nonnegative rational is nonnegative. -/
theorem roundHE_nonneg {x : ℚ} (h : 0 ≤ x) : 0 ≤ roundHE x := by
  have hf : (0 : ℤ) ≤ Int.floor x := Int.floor_nonneg.mpr h
  rcases roundHE_cases x with h1 | ⟨h1, _⟩ <;> omega

/-- Round-half-to-even never overshoots an integer upper bound. -/
theorem roundHE_le {x : ℚ} {m : ℤ} (h : x ≤ (m : ℚ)) : roundHE x ≤ m := by
  rcases roundHE_cases x with h1 | ⟨h1, h2⟩
  · rw [h1]
    calc Int.floor x ≤ Int.floor ((m : ℚ)) := Int.floor_mono h
      _ = m := Int.floor_intCast m
  · rw [h1]
    have hlt : (Int.floor x : ℚ) < (m : ℚ) := lt_of_lt_of_le h2 h
    have : Int.floor x < m := by exact_mod_cast hlt
    omega

/-- Round-half-to-even never undershoots an integer lower bound. -/
theorem roundHE_ge {x : ℚ} {m : ℤ} (h : (m : ℚ) ≤ x) : m ≤ roundHE x := by
  have hf : m ≤ Int.floor x := Int.le_floor.mpr h
  rcases roundHE_cases x with h1 | ⟨h1, _⟩ <;> omega

/-- Decimal rounding of a nonnegative value is nonnegative. -/
theorem roundDp_nonneg {n : ℕ} {x : ℚ} (h : 0 ≤ x) : 0 ≤ roundDp n x := by
  unfold roundDp
  apply div_nonneg
  · exact_mod_cast roundHE_nonneg (by positivity)
  · positivity

/-- Decimal rounding of a value at most one is at most one. -/
theorem roundDp_le_one {n : ℕ} {x : ℚ} (h : x ≤ 1) : roundDp n x ≤ 1 := by
  unfold roundDp
  rw [div_le_one (by positivity)]
  have hp : (0 : ℚ) ≤ 10 ^ n := by positivity
  have hm : x * 10 ^ n ≤ (((10 : ℤ) ^ n : ℤ) : ℚ) := by
    push_cast
    nlinarith
  have := roundHE_le hm
  exact_mod_cast this

/-- Decimal rounding of a nonpositive value is nonpositive. -/
theorem roundDp_le_zero {n : ℕ} {x : ℚ} (h : x ≤ 0) : roundDp n x ≤ 0 := by
  unfold roundDp
  rw [div_nonpos_iff]
  right
  constructor
  · have hp : (0 : ℚ) ≤ 10 ^ n := by positivity
    have hm : x * 10 ^ n ≤ (((0 : ℤ)) : ℚ) := by push_cast; nlinarith
    exact_mod_cast roundHE_le hm
  · positivity

/-- Decimal rounding of a value at least minus one is at least minus one. -/
theorem roundDp_ge_neg_one {n : ℕ} {x : ℚ} (h : -1 ≤ x) : -1 ≤ roundDp n x := by
  unfold roundDp
  rw [le_div_iff (by positivity)]
  have hp : (0 : ℚ) ≤ 10 ^ n := by positivity
  have hm : ((-(10 : ℤ) ^ n : ℤ) : ℚ) ≤ x * 10 ^ n := by push_cast; nlinarith
  have h1 := roundHE_ge hm
  have h2 : ((-(10 : ℤ) ^ n : ℤ) : ℚ) ≤ (roundHE (x * 10 ^ n) : ℚ) := by
    exact_mod_cast h1
  push_cast at h2
  linarith

/-- Rounding fixes zero. -/
theorem roundDp_zero (n : ℕ) : roundDp n 0 = 0 := by
  have h0 : roundHE 0 = 0 := by
    unfold roundHE
    norm_num
  simp [roundDp, h0]

/-- Rounding the all-zero Greeks row returns it unchanged. -/
theorem roundRow_zero : roundRow GreekRow.zero = GreekRow.zero := by
  simp [roundRow, GreekRow.zero, roundDp_zero]

/-- Trivial concrete instantiation of the numerical primitives, used to
evaluate the theorems on concrete inputs. -/
def P0 : RealPrims :=
  ⟨fun _ => 0, fun _ => 1, fun _ => 1, fun _ => 1/2, fun _ => 1/2⟩

/-- Trivial concrete bounded optimizer: returns the lower bound of a
well-formed interval and fails otherwise. -/
def opt0 : Optimizer := fun _ lo hi => if lo ≤ hi then some lo else none

/-- C1: the pricing function returns 0 whenever `timeToExpiry <= 0` or
`volatility <= 0`, for every spot, strike and rate; and whenever
`volatility > 0`, `timeToExpiry > 0`, `spot > 0` and `strike > 0` it
returns the standard Black-Scholes closed form, Call and Put. -/
theorem C1_black_scholes_spec (P : RealPrims) (volatility spot strike t r : ℚ) :
    ((t ≤ 0 ∨ volatility ≤ 0) → ∀ option_type,
        black_scholes_price P volatility option_type spot strike t r = 0) ∧
    (0 < volatility → 0 < t → 0 < spot → 0 < strike →
      black_scholes_price P volatility "Call" spot strike t r =
        spot * P.cdf (d1 P volatility spot strike t r) -
          strike * P.exp (-(r * t)) * P.cdf (d2 P volatility spot strike t r) ∧
      black_scholes_price P volatility "Put" spot strike t r =
        strike * P.exp (-(r * t)) * P.cdf (-(d2 P volatility spot strike t r)) -
          spot * P.cdf (-(d1 P volatility spot strike t r))) := by
  constructor
  · intro h option_type
    simp [black_scholes_price, h]
  · intro hv ht hs hk
    have hg : ¬(t ≤ 0 ∨ volatility ≤ 0) := by push_neg; exact ⟨ht, hv⟩
    constructor
    · simp [black_scholes_price, hg]
    · simp [black_scholes_price, hg]

/-- Witness for C1 at concrete inputs: the `t < 0` guard and the Put
closed form, both obtained from `C1_black_scholes_spec`. -/
theorem C1_black_scholes_spec_w :
    black_scholes_price P0 1 "Call" 2 3 (-1) 0 = 0 ∧
    black_scholes_price P0 1 "Put" 2 3 1 0 =
      3 * P0.exp (-(0 * 1)) * P0.cdf (-(d2 P0 1 2 3 1 0)) -
        2 * P0.cdf (-(d1 P0 1 2 3 1 0)) :=
  ⟨(C1_black_scholes_spec P0 1 2 3 (-1) 0).1 (Or.inl (by norm_num)) "Call",
   ((C1_black_scholes_spec P0 1 2 3 1 0).2 (by norm_num) (by norm_num)
      (by norm_num) (by norm_num)).2⟩

/-- C2: the IV solver returns 0 immediately on any non-positive
`timeToExpiry`, market price, spot or strike; otherwise it returns exactly
what the bounded optimizer produces on the objective
`|price(vol) - marketPrice|` over [0.001, 5.0], an optimizer failure being
mapped to 0; hence the result is always 0 or a value in [0.001, 5.0]. -/
theorem C2_calculate_iv_spec (opt : Optimizer) (P : RealPrims)
    (option_type : String) (spot strike market_price t r : ℚ)
    (hopt : OptimizerBounded opt) :
    ((t ≤ 0 ∨ market_price ≤ 0 ∨ spot ≤ 0 ∨ strike ≤ 0) →
        calculate_iv opt P option_type spot strike market_price t r = 0) ∧
    (calculate_iv opt P option_type spot strike market_price t r = 0 ∨
      (1/1000 ≤ calculate_iv opt P option_type spot strike market_price t r ∧
        calculate_iv opt P option_type spot strike market_price t r ≤ 5)) ∧
    (¬(t ≤ 0 ∨ market_price ≤ 0 ∨ spot ≤ 0 ∨ strike ≤ 0) →
      ∀ x, opt (fun vol =>
          |black_scholes_price P vol option_type spot strike t r - market_price|)
          (1/1000) 5 = some x →
        calculate_iv opt P option_type spot strike market_price t r = x) := by
  refine ⟨?_, ?_, ?_⟩
  · intro h
    simp [calculate_iv, h]
  · by_cases hg : t ≤ 0 ∨ market_price ≤ 0 ∨ spot ≤ 0 ∨ strike ≤ 0
    · left; simp [calculate_iv, hg]
    · cases hx : opt (fun vol =>
          |black_scholes_price P vol option_type spot strike t r - market_price|)
          (1/1000) 5 with
      | none =>
          left
          simp only [calculate_iv, if_neg hg]
          rw [hx]
      | some x =>
          right
          have hb := hopt _ _ _ _ hx
          simp only [calculate_iv, if_neg hg]
          rw [hx]
          exact hb
  · intro hg x hx
    simp only [calculate_iv, if_neg hg]
    rw [hx]

/-- Witness for C2 at concrete inputs, with the trivial bounded optimizer. -/
theorem C2_calculate_iv_spec_w :
    calculate_iv opt0 P0 "Call" 100 100 5 (1/4) (7/100) = 0 ∨
      (1/1000 ≤ calculate_iv opt0 P0 "Call" 100 100 5 (1/4) (7/100) ∧
        calculate_iv opt0 P0 "Call" 100 100 5 (1/4) (7/100) ≤ 5) :=
  (C2_calculate_iv_spec opt0 P0 "Call" 100 100 5 (1/4) (7/100)
    (by
      intro f lo hi x h
      unfold opt0 at h
      by_cases hle : lo ≤ hi
      · rw [if_pos hle] at h
        injection h with h2
        subst h2
        exact ⟨le_refl _, hle⟩
      · rw [if_neg hle] at h
        exact Option.noConfusion h)).2.1

/-- Position `i` of the Greeks batch output, for equal-length in-range
inputs: the rounded closed form on a valid pair, the zero row otherwise. -/
theorem greeks_vectorized_getD (P : RealPrims) (iv_array : List ℚ)
    (option_type : String) (spot : ℚ) (strikes : List ℚ) (t r : ℚ)
    (hlen : iv_array.length = strikes.length) (i : ℕ) (hi : i < strikes.length) :
    (calculate_greeks_vectorized P iv_array option_type spot strikes t r).getD i
        GreekRow.zero =
      if validPair (iv_array.getD i 0) t (strikes.getD i 0) then
        roundRow (greeksFormula P option_type spot (iv_array.getD i 0)
          (strikes.getD i 0) t r)
      else GreekRow.zero := by
  have hi1 : i < iv_array.length := by omega
  have hz : i < (iv_array.zip strikes).length := by
    rw [List.length_zip]; omega
  have hm : i < (calculate_greeks_vectorized P iv_array option_type spot
      strikes t r).length := by
    simp [calculate_greeks_vectorized, List.length_zip]; omega
  rw [List.getD_eq_getElem _ _ hm]
  simp only [calculate_greeks_vectorized, List.getElem_map, List.getElem_zip]
  rw [List.getD_eq_getElem _ _ hi1, List.getD_eq_getElem _ _ hi]
  by_cases hv : validPair iv_array[i] t strikes[i]
  · simp [hv]
  · simp [hv, roundRow_zero]

/-- C4: for equal-length IV and strike arrays, the Greeks batch output has
exactly one row per input index, and every index whose (iv, strike) pair
fails the validity mask `iv > 0 ∧ t > 0 ∧ strike > 0` carries the all-zero
Greeks row; in the embedding, as in the code, such entries are excluded
from the closed-form computation by the mask. -/
theorem C4_greeks_batch_shape (P : RealPrims) (iv_array : List ℚ)
    (option_type : String) (spot : ℚ) (strikes : List ℚ) (t r : ℚ)
    (hlen : iv_array.length = strikes.length) :
    (calculate_greeks_vectorized P iv_array option_type spot strikes t r).length
        = strikes.length ∧
    ∀ i, i < strikes.length →
      ¬ validPair (iv_array.getD i 0) t (strikes.getD i 0) →
        (calculate_greeks_vectorized P iv_array option_type spot
            strikes t r).getD i GreekRow.zero = GreekRow.zero := by
  constructor
  · simp [calculate_greeks_vectorized, List.length_zip, hlen]
  · intro i hi hnv
    rw [greeks_vectorized_getD P iv_array option_type spot strikes t r hlen i hi]
    exact if_neg hnv

/-- Witness for C4: a two-row batch with one invalid entry. -/
theorem C4_greeks_batch_shape_w :
    (calculate_greeks_vectorized P0 [0, 1/5] "Call" 100 [90, 100] 1 (7/100)).length
        = 2 ∧
    (calculate_greeks_vectorized P0 [0, 1/5] "Call" 100 [90, 100] 1
        (7/100)).getD 0 GreekRow.zero = GreekRow.zero := by
  have h := C4_greeks_batch_shape P0 [0, 1/5] "Call" 100 [90, 100] 1 (7/100)
    (by decide)
  exact ⟨h.1, h.2 0 (by decide) (by decide)⟩

/-- C10: in every Greeks batch, every valid entry has its delta in [0, 1]
on the Call side and in [-1, 0] on the Put side, assuming only that the
normal CDF primitive has range inside [0, 1]; the bounds survive the
4-decimal rounding. -/
theorem C10_delta_bounds (P : RealPrims) (iv_array : List ℚ)
    (option_type : String) (spot : ℚ) (strikes : List ℚ) (t r : ℚ)
    (hlen : iv_array.length = strikes.length)
    (hcdf : ∀ z, 0 ≤ P.cdf z ∧ P.cdf z ≤ 1) (hspot : 0 < spot) :
    ∀ i, i < strikes.length →
      validPair (iv_array.getD i 0) t (strikes.getD i 0) →
        (option_type = "Call" →
          0 ≤ ((calculate_greeks_vectorized P iv_array option_type spot
              strikes t r).getD i GreekRow.zero).delta ∧
          ((calculate_greeks_vectorized P iv_array option_type spot
              strikes t r).getD i GreekRow.zero).delta ≤ 1) ∧
        (option_type = "Put" →
          -1 ≤ ((calculate_greeks_vectorized P iv_array option_type spot
              strikes t r).getD i GreekRow.zero).delta ∧
          ((calculate_greeks_vectorized P iv_array option_type spot
              strikes t r).getD i GreekRow.zero).delta ≤ 0) := by
  intro i hi hv
  rw [greeks_vectorized_getD P iv_array option_type spot strikes t r hlen i hi,
    if_pos hv]
  constructor
  · intro hc
    subst hc
    have hd : (greeksFormula P "Call" spot (iv_array.getD i 0)
        (strikes.getD i 0) t r).delta =
        P.cdf (d1 P (iv_array.getD i 0) spot (strikes.getD i 0) t r) := by
      simp [greeksFormula]
    rcases hcdf (d1 P (iv_array.getD i 0) spot (strikes.getD i 0) t r) with
      ⟨hl, hu⟩
    constructor
    · show 0 ≤ roundDp 4 (greeksFormula P "Call" spot (iv_array.getD i 0)
        (strikes.getD i 0) t r).delta
      rw [hd]; exact roundDp_nonneg hl
    · show roundDp 4 (greeksFormula P "Call" spot (iv_array.getD i 0)
        (strikes.getD i 0) t r).delta ≤ 1
      rw [hd]; exact roundDp_le_one hu
  · intro hp
    subst hp
    have hd : (greeksFormula P "Put" spot (iv_array.getD i 0)
        (strikes.getD i 0) t r).delta =
        P.cdf (d1 P (iv_array.getD i 0) spot (strikes.getD i 0) t r) - 1 := by
      simp [greeksFormula]
    rcases hcdf (d1 P (iv_array.getD i 0) spot (strikes.getD i 0) t r) with
      ⟨hl, hu⟩
    constructor
    · show -1 ≤ roundDp 4 (greeksFormula P "Put" spot (iv_array.getD i 0)
        (strikes.getD i 0) t r).delta
      rw [hd]; exact roundDp_ge_neg_one (by linarith)
    · show roundDp 4 (greeksFormula P "Put" spot (iv_array.getD i 0)
        (strikes.getD i 0) t r).delta ≤ 0
      rw [hd]; exact roundDp_le_zero (by linarith)

/-- Witness for C10: a one-row valid Put batch under the trivial
primitives. -/
theorem C10_delta_bounds_w :
    -1 ≤ ((calculate_greeks_vectorized P0 [1/5] "Put" 100 [100] 1
        (7/100)).getD 0 GreekRow.zero).delta ∧
    ((calculate_greeks_vectorized P0 [1/5] "Put" 100 [100] 1
        (7/100)).getD 0 GreekRow.zero).delta ≤ 0 :=
  (C10_delta_bounds P0 [1/5] "Put" 100 [100] 1 (7/100) (by decide)
      (fun _ => by norm_num [P0]) (by norm_num) 0 (by decide)
      (by norm_num [validPair])).2 rfl

/-- First index of the minimum of a list, the semantics of `np.argmin`
(ties resolved to the first occurrence of the minimal value). -/
def argminIdx : List ℚ → ℕ
  | [] => 0
  | [_] => 0
  | x :: y :: ys =>
    if (y :: ys).getD (argminIdx (y :: ys)) 0 < x then argminIdx (y :: ys) + 1
    else 0

/-- Unfolding equation of `argminIdx` on a singleton. -/
theorem argminIdx_single (x : ℚ) : argminIdx [x] = 0 := rfl

/-- Unfolding equation of `argminIdx` on two or more elements. -/
theorem argminIdx_cons2 (x y : ℚ) (ys : List ℚ) :
    argminIdx (x :: y :: ys) =
      if (y :: ys).getD (argminIdx (y :: ys)) 0 < x then argminIdx (y :: ys) + 1
      else 0 := rfl

/-- The argmin of a nonempty list is a position of the list. -/
theorem argminIdx_lt_length (l : List ℚ) (h : l ≠ []) :
    argminIdx l < l.length := by
  induction l with
  | nil => exact absurd rfl h
  | cons x l2 ih =>
    cases l2 with
    | nil => rw [argminIdx_single]; simp
    | cons y ys =>
      rw [argminIdx_cons2]
      have h2 := ih (by simp)
      split_ifs
      · simpa using Nat.succ_lt_succ h2
      · simp

/-- The element at the argmin is a lower bound of the list. -/
theorem argminIdx_le (l : List ℚ) :
    ∀ j, j < l.length → l.getD (argminIdx l) 0 ≤ l.getD j 0 := by
  induction l with
  | nil => intro j hj; simp at hj
  | cons x l2 ih =>
    cases l2 with
    | nil =>
      intro j hj
      have hj0 : j = 0 := by simpa using hj
      subst hj0
      rw [argminIdx_single]
    | cons y ys =>
      intro j hj
      rw [argminIdx_cons2]
      by_cases hcond : (y :: ys).getD (argminIdx (y :: ys)) 0 < x
      · rw [if_pos hcond, List.getD_cons_succ]
        cases j with
        | zero => rw [List.getD_cons_zero]; exact le_of_lt hcond
        | succ k =>
          rw [List.getD_cons_succ]
          exact ih k (Nat.lt_of_succ_lt_succ (by simpa using hj))
      · rw [if_neg hcond, List.getD_cons_zero]
        push_neg at hcond
        cases j with
        | zero => rw [List.getD_cons_zero]
        | succ k =>
          rw [List.getD_cons_succ]
          exact le_trans hcond
            (ih k (Nat.lt_of_succ_lt_succ (by simpa using hj)))

/-- Every position strictly before the argmin holds a strictly larger
value: the argmin is the first occurrence of the minimum. -/
theorem argminIdx_first (l : List ℚ) :
    ∀ j, j < argminIdx l → l.getD (argminIdx l) 0 < l.getD j 0 := by
  induction l with
  | nil => intro j hj; simp [argminIdx] at hj
  | cons x l2 ih =>
    cases l2 with
    | nil =>
      intro j hj
      rw [argminIdx_single] at hj
      exact absurd hj (Nat.not_lt_zero j)
    | cons y ys =>
      intro j hj
      rw [argminIdx_cons2] at hj ⊢
      by_cases hcond : (y :: ys).getD (argminIdx (y :: ys)) 0 < x
      · rw [if_pos hcond] at hj ⊢
        rw [List.getD_cons_succ]
        cases j with
        | zero => rw [List.getD_cons_zero]; exact hcond
        | succ k =>
          rw [List.getD_cons_succ]
          exact ih k (Nat.lt_of_succ_lt_succ hj)
      · rw [if_neg hcond] at hj
        exact absurd hj (Nat.not_lt_zero j)

/-- Total pain of candidate strike index `i`
(src/calculations/metrics.py, lines 12-15):
`sum_j max(K_i - K_j, 0)*callOI_j + sum_j max(K_j - K_i, 0)*putOI_j`. -/
def total_pain (strikes call_oi put_oi : List ℚ) (i : ℕ) : ℚ :=
  ((strikes.zip call_oi).map
      (fun p => max (strikes.getD i 0 - p.1) 0 * p.2)).sum +
  ((strikes.zip put_oi).map
      (fun p => max (p.1 - strikes.getD i 0) 0 * p.2)).sum

/-- The vector of total pains, one per candidate strike index. -/
def painList (strikes call_oi put_oi : List ℚ) : List ℚ :=
  (List.range strikes.length).map (total_pain strikes call_oi put_oi)

/-- Embedding of the max-pain computation
(src/calculations/metrics.py, line 16):
`strikes[np.argmin(total_pain)] if len(total_pain) > 0 else 0`. -/
def max_pain (strikes call_oi put_oi : List ℚ) : ℚ :=
  if 0 < (painList strikes call_oi put_oi).length then
    strikes.getD (argminIdx (painList strikes call_oi put_oi)) 0
  else 0

/-- Entry `j` of the pain vector is the total pain of index `j`. -/
theorem painList_getD (strikes call_oi put_oi : List ℚ) (j : ℕ)
    (hj : j < strikes.length) :
    (painList strikes call_oi put_oi).getD j 0 =
      total_pain strikes call_oi put_oi j := by
  have hj3 : j < ((List.range strikes.length).map
      (total_pain strikes call_oi put_oi)).length := by simpa
  unfold painList
  rw [List.getD_eq_getElem _ _ hj3, List.getElem_map, List.getElem_range]

/-- C5: for a chain sorted ascending by strike, the returned max pain is
the strike at the first index minimizing total pain: that index is in
range, the returned value is the strike there, its pain is a lower bound
of all pains, and every earlier index has strictly larger pain. -/
theorem C5_max_pain_spec (strikes call_oi put_oi : List ℚ)
    (hc : call_oi.length = strikes.length)
    (hp : put_oi.length = strikes.length)
    (hs : List.Sorted (· ≤ ·) strikes) (hne : strikes ≠ []) :
    ∃ i, i < strikes.length ∧
      max_pain strikes call_oi put_oi = strikes.getD i 0 ∧
      (∀ j, j < strikes.length →
        total_pain strikes call_oi put_oi i ≤
          total_pain strikes call_oi put_oi j) ∧
      (∀ j, j < i →
        total_pain strikes call_oi put_oi i <
          total_pain strikes call_oi put_oi j) := by
  have hlen : (painList strikes call_oi put_oi).length = strikes.length := by
    simp [painList]
  have hpos : 0 < (painList strikes call_oi put_oi).length := by
    rw [hlen]
    exact List.length_pos.mpr hne
  have hne2 : painList strikes call_oi put_oi ≠ [] :=
    List.ne_nil_of_length_pos hpos
  have hargmin : argminIdx (painList strikes call_oi put_oi) <
      strikes.length := by
    rw [← hlen]
    exact argminIdx_lt_length _ hne2
  refine ⟨argminIdx (painList strikes call_oi put_oi), hargmin, ?_, ?_, ?_⟩
  · unfold max_pain
    rw [if_pos hpos]
  · intro j hj
    have h1 := argminIdx_le (painList strikes call_oi put_oi) j
      (by rw [hlen]; exact hj)
    rwa [painList_getD _ _ _ j hj, painList_getD _ _ _ _ hargmin] at h1
  · intro j hj
    have hjlen : j < strikes.length :=
      lt_trans hj hargmin
    have h1 := argminIdx_first (painList strikes call_oi put_oi) j hj
    rwa [painList_getD _ _ _ j hjlen, painList_getD _ _ _ _ hargmin] at h1

/-- Witness for C5: the testable-properties example chain, strikes
[95, 100, 105] with call OI [100, 50, 20] and put OI [10, 60, 120]. -/
theorem C5_max_pain_spec_w :
    ∃ i, i < ([95, 100, 105] : List ℚ).length ∧
      max_pain [95, 100, 105] [100, 50, 20] [10, 60, 120] =
        ([95, 100, 105] : List ℚ).getD i 0 ∧
      (∀ j, j < ([95, 100, 105] : List ℚ).length →
        total_pain [95, 100, 105] [100, 50, 20] [10, 60, 120] i ≤
          total_pain [95, 100, 105] [100, 50, 20] [10, 60, 120] j) ∧
      (∀ j, j < i →
        total_pain [95, 100, 105] [100, 50, 20] [10, 60, 120] i <
          total_pain [95, 100, 105] [100, 50, 20] [10, 60, 120] j) :=
  C5_max_pain_spec [95, 100, 105] [100, 50, 20] [10, 60, 120] (by decide)
    (by decide) (by norm_num [List.sorted_cons]) (by decide)

/-- Mean of a column (`Series.mean`); the enriched-chain columns carry no
NaN, so the pandas NaN-skipping mean is the plain arithmetic mean. -/
def colMean (l : List ℚ) : ℚ := l.sum / l.length

/-- Put-call ratio (src/calculations/metrics.py, line 21):
`round(total_put_oi / total_call_oi if total_call_oi > 0 else 0, 2)`. -/
def pcr (call_oi put_oi : List ℚ) : ℚ :=
  roundDp 2 (if 0 < call_oi.sum then put_oi.sum / call_oi.sum else 0)

/-- PCR signal (src/calculations/metrics.py, lines 28-33). -/
def pcrSignal (call_oi put_oi : List ℚ) : ℚ :=
  if 6/5 < pcr call_oi put_oi then 30
  else if pcr call_oi put_oi < 4/5 then -30
  else (pcr call_oi put_oi - 1) * 75

/-- OI-change signal (src/calculations/metrics.py, lines 22 and 36-39):
`net = put change sum - call change sum`, then +25 / -25 / 0 by sign. -/
def oiSignal (call_chng put_chng : List ℚ) : ℚ :=
  if 0 < put_chng.sum - call_chng.sum then 25
  else if put_chng.sum - call_chng.sum < 0 then -25
  else 0

/-- Max-pain signal (src/calculations/metrics.py, lines 42-45). -/
def maxPainSignal (strikes call_oi put_oi : List ℚ) (spot : ℚ) : ℚ :=
  if spot < max_pain strikes call_oi put_oi then 20
  else if max_pain strikes call_oi put_oi < spot then -20
  else 0

/-- Volume-skew signal (src/calculations/metrics.py, lines 48-55), applied
only when both volume columns are present (`none` = columns absent). -/
def volumeSignal (vols : Option (List ℚ × List ℚ)) : ℚ :=
  match vols with
  | none => 0
  | some (cv, pv) =>
    if 11/10 < (if 0 < cv.sum then pv.sum / cv.sum else 0) then 15
    else if (if 0 < cv.sum then pv.sum / cv.sum else 0) < 9/10 then -15
    else 0

/-- IV-skew signal for present IV columns (src/calculations/metrics.py,
lines 59-66): ATM row = first index minimizing `|strike - spot|`
(`idxmin`), applied only when that row is neither first nor last; the
`else` branch of the comparison (ties included) scores -10. -/
def ivSkewSignal (strikes civ piv : List ℚ) (spot : ℚ) : ℚ :=
  if 0 < argminIdx (strikes.map (fun k => |k - spot|)) ∧
      argminIdx (strikes.map (fun k => |k - spot|)) < strikes.length - 1 then
    if civ.getD (argminIdx (strikes.map (fun k => |k - spot|))) 0 - colMean civ <
        piv.getD (argminIdx (strikes.map (fun k => |k - spot|))) 0 - colMean piv
    then 10 else -10
  else 0

/-- The IV-skew contribution for an optionally present IV column pair. -/
def ivSignalOpt (strikes : List ℚ) (ivs : Option (List ℚ × List ℚ))
    (spot : ℚ) : ℚ :=
  match ivs with
  | none => 0
  | some (civ, piv) => ivSkewSignal strikes civ piv spot

/-- Embedding of the sentiment-score portion of
`calculate_dashboard_metrics` (src/calculations/metrics.py, lines 24-66
and 74).  The chain is given by its columns; `vols`/`ivs` are `none` when
the volume/IV column pairs are absent.  The result is `none` exactly when
the IV columns are present and the chain has no rows: there the code
raises `ValueError` inside `idxmin` on the empty ATM-distance series
(before the interior-row guard), so no score is returned; on every other
input the clamped score of line 74 is reached. -/
def sentimentScore (strikes call_oi put_oi call_chng put_chng : List ℚ)
    (vols ivs : Option (List ℚ × List ℚ)) (spot : ℚ) : Option ℚ :=
  if ivs.isSome ∧ strikes = [] then none
  else some (max (-100) (min 100
    (pcrSignal call_oi put_oi + oiSignal call_chng put_chng +
      maxPainSignal strikes call_oi put_oi spot + volumeSignal vols +
      ivSignalOpt strikes ivs spot)))

/-- C7 counterexample: an empty chain that carries the IV columns.  The
code reaches `(chain_df['Strike'] - spot).abs().idxmin()` with an empty
series and raises `ValueError`, so no sentiment score is returned at all,
refuting "for every input chain ... the sentiment score returned ... lies
in [-100, 100]" at this input. -/
theorem C7_sentiment_counterexample :
    sentimentScore [] [] [] [] [] none (some ([], [])) 100 = none := rfl

/-- C7 amended: for every chain that is nonempty or lacks the IV columns,
a score is returned; it equals the sum of the applicable signals (PCR,
OI-change, max-pain, and volume-skew/IV-skew when the respective columns
are present) clamped to [-100, 100], and it lies in [-100, 100]. -/
theorem C7_sentiment_spec (strikes call_oi put_oi call_chng put_chng : List ℚ)
    (vols ivs : Option (List ℚ × List ℚ)) (spot : ℚ)
    (h : strikes ≠ [] ∨ ivs = none) :
    ∃ s, sentimentScore strikes call_oi put_oi call_chng put_chng
        vols ivs spot = some s ∧
      s = max (-100) (min 100
        (pcrSignal call_oi put_oi + oiSignal call_chng put_chng +
          maxPainSignal strikes call_oi put_oi spot + volumeSignal vols +
          ivSignalOpt strikes ivs spot)) ∧
      -100 ≤ s ∧ s ≤ 100 := by
  have hg : ¬(ivs.isSome ∧ strikes = []) := by
    rintro ⟨h1, h2⟩
    rcases h with h | h
    · exact h h2
    · rw [h] at h1; simp at h1
  refine ⟨_, ?_, rfl, ?_, ?_⟩
  · unfold sentimentScore
    rw [if_neg hg]
  · exact le_max_left _ _
  · exact max_le (by norm_num) (min_le_left _ _)

/-- Witness for C7 (amended) on a nonempty concrete chain with both
optional column pairs present. -/
theorem C7_sentiment_spec_w :
    ∃ s, sentimentScore [95, 100, 105] [100, 50, 20] [10, 60, 120]
        [5, 5, 5] [1, 2, 3] (some ([10, 10, 10], [12, 12, 12]))
        (some ([11, 12, 13], [14, 15, 16])) 100 = some s ∧
      s = max (-100) (min 100
        (pcrSignal [100, 50, 20] [10, 60, 120] + oiSignal [5, 5, 5] [1, 2, 3] +
          maxPainSignal [95, 100, 105] [100, 50, 20] [10, 60, 120] 100 +
          volumeSignal (some ([10, 10, 10], [12, 12, 12])) +
          ivSignalOpt [95, 100, 105] (some ([11, 12, 13], [14, 15, 16])) 100)) ∧
      -100 ≤ s ∧ s ≤ 100 :=
  C7_sentiment_spec [95, 100, 105] [100, 50, 20] [10, 60, 120] [5, 5, 5]
    [1, 2, 3] (some ([10, 10, 10], [12, 12, 12]))
    (some ([11, 12, 13], [14, 15, 16])) 100 (Or.inl (by decide))

/-- A raw quote row after column-name normalization, restricted to the
fields the aggregation claims depend on.  The LTP cell is `Option ℚ`:
`none` models a value that is NaN in the DataFrame column (the row lacked
the field, or carried a null). -/
structure RawQuote where
  strike : ℚ
  right : String
  ltp : Option ℚ
deriving DecidableEq

/-- ASCII uppercase of one character, the effect of Python `str.upper()`
on the ASCII option-side tags. -/
def upperChar (c : Char) : Char :=
  if 97 ≤ c.toNat ∧ c.toNat ≤ 122 then Char.ofNat (c.toNat - 32) else c

/-- ASCII uppercase of a string (`Series.str.upper()` on side tags). -/
def upperAscii (s : String) : String := String.mk (s.data.map upperChar)

/-- Call-side rows: `df[df['right'].str.upper() == 'CALL']`
(src/data/processor.py, line 86). -/
def callsOf (rows : List RawQuote) : List RawQuote :=
  rows.filter (fun q => upperAscii q.right = "CALL")

/-- Put-side rows: `df[df['right'].str.upper() == 'PUT']`
(src/data/processor.py, line 87). -/
def putsOf (rows : List RawQuote) : List RawQuote :=
  rows.filter (fun q => upperAscii q.right = "PUT")

/-- Numeric fill of an LTP cell:
`pd.to_numeric(..., errors='coerce').fillna(0)` and the post-merge
`fillna(0)` both send a missing value to 0. -/
def cellVal (c : Option ℚ) : ℚ := c.getD 0

/-- The strike keys of the merged chain.  `pd.merge(..., how='outer')` on
the strike key takes the union of the two key sets, sorted ascending,
and gives the result a fresh positional index 0..n-1; the subsequent
`sort_values` leaves this already-sorted frame in place.  Modelled for
per-side-distinct strikes (the ChainRow invariant: one row per strike). -/
def chainKeys (rows : List RawQuote) : List ℚ :=
  List.insertionSort (· ≤ ·)
    (((callsOf rows).map RawQuote.strike) ++
      ((putsOf rows).map RawQuote.strike)).dedup

/-- One merged per-strike row of the chain before enrichment. -/
structure MergedRow where
  strike : ℚ
  ltp_call : ℚ
  ltp_put : ℚ
deriving DecidableEq

/-- The default merged row used with `List.getD`. -/
def mr0 : MergedRow := ⟨0, 0, 0⟩

/-- LTP contributed by one side at strike `k`: the side's row with that
strike if any (0 after the merge fillna otherwise). -/
def sideLtp (side : List RawQuote) (k : ℚ) : ℚ :=
  match side.find? (fun q => q.strike = k) with
  | some q => cellVal q.ltp
  | none => 0

/-- The merged, strike-sorted chain (src/data/processor.py, lines 86-91). -/
def buildChain (rows : List RawQuote) : List MergedRow :=
  (chainKeys rows).map
    (fun k => ⟨k, sideLtp (callsOf rows) k, sideLtp (putsOf rows) k⟩)

/-- One row of the enriched chain.  When `t <= 0` the code leaves the
IV/Greeks columns absent; the embedding represents the absent columns by
their zero defaults. -/
structure EnrichedRow where
  strike : ℚ
  ltp_call : ℚ
  ltp_put : ℚ
  callIV : ℚ
  putIV : ℚ
  callG : GreekRow
  putG : GreekRow
deriving DecidableEq

/-- The default enriched row used with `List.getD`. -/
def er0 : EnrichedRow := ⟨0, 0, 0, 0, 0, GreekRow.zero, GreekRow.zero⟩

/-- The per-row Call IV column (src/data/processor.py, lines 98-102):
`calculate_iv('Call', spot, strike, ltp_call, t) * 100` when the row's
call LTP is positive, else 0.  The default rate 0.07 of `calculate_iv`
applies. -/
def callIVs (opt : Optimizer) (P : RealPrims) (rows : List RawQuote)
    (spot t : ℚ) : List ℚ :=
  (buildChain rows).map (fun row =>
    if 0 < row.ltp_call then
      calculate_iv opt P "Call" spot row.strike row.ltp_call t (7/100) * 100
    else 0)

/-- The per-row Put IV column (src/data/processor.py, lines 103-107). -/
def putIVs (opt : Optimizer) (P : RealPrims) (rows : List RawQuote)
    (spot t : ℚ) : List ℚ :=
  (buildChain rows).map (fun row =>
    if 0 < row.ltp_put then
      calculate_iv opt P "Put" spot row.strike row.ltp_put t (7/100) * 100
    else 0)

/-- Enrichment of the merged chain (src/data/processor.py, lines 96-120):
when `t > 0`, compute the IV columns row by row, divide them by 100,
batch-compute the Greeks per side over the whole chain, and attach the
Greeks tables positionally (the chain and the Greeks tables share the
positional index 0..n-1, so `pd.concat(axis=1)` aligns row `i` with batch
output row `i`).  When `t <= 0` the chain is returned without enrichment. -/
def enrichChain (opt : Optimizer) (P : RealPrims) (rows : List RawQuote)
    (spot t : ℚ) : List EnrichedRow :=
  if 0 < t then
    (List.range (buildChain rows).length).map (fun i =>
      { strike := ((buildChain rows).getD i mr0).strike
        ltp_call := ((buildChain rows).getD i mr0).ltp_call
        ltp_put := ((buildChain rows).getD i mr0).ltp_put
        callIV := (callIVs opt P rows spot t).getD i 0
        putIV := (putIVs opt P rows spot t).getD i 0
        callG := (calculate_greeks_vectorized P
            ((callIVs opt P rows spot t).map (· / 100)) "Call" spot
            ((buildChain rows).map MergedRow.strike) t (7/100)).getD i
            GreekRow.zero
        putG := (calculate_greeks_vectorized P
            ((putIVs opt P rows spot t).map (· / 100)) "Put" spot
            ((buildChain rows).map MergedRow.strike) t (7/100)).getD i
            GreekRow.zero })
  else
    (buildChain rows).map (fun row =>
      ⟨row.strike, row.ltp_call, row.ltp_put, 0, 0, GreekRow.zero,
        GreekRow.zero⟩)

/-- Column normalization restricted to the LTP column
(src/data/processor.py, lines 39-43): when no row carries an LTP value the
column is absent from the DataFrame and is created filled with 0. -/
def normalizeLtp (rows : List RawQuote) : List RawQuote :=
  if rows.any (fun q => q.ltp.isSome) then rows
  else rows.map (fun q => { q with ltp := some 0 })

/-- Embedding of the LTP check of `validate_option_data`
(src/data/processor.py, line 57): fails when the LTP column is all-NaN or
all-zero.  A NaN cell compares unequal to 0, so a mix of NaN and zero
cells passes.  (The missing-column check of lines 50-55 cannot fire after
normalization, which creates every required column.) -/
def validateLtp (rows : List RawQuote) : Bool :=
  !(rows.all (fun q => q.ltp.isNone) ||
    rows.all (fun q => decide (q.ltp = some 0)))

/-- Embedding of `process_and_analyze` (src/data/processor.py, lines
64-129) on the claim-relevant fields: empty input gives an empty chain;
otherwise normalize, validate (empty chain on failure), then merge and
enrich.  Time to expiry is a parameter (the code derives it from the
expiry date and the current clock). -/
def process_and_analyze (opt : Optimizer) (P : RealPrims)
    (rows : List RawQuote) (spot t : ℚ) : List EnrichedRow :=
  if rows = [] then []
  else if validateLtp (normalizeLtp rows) then
    enrichChain opt P (normalizeLtp rows) spot t
  else []

/-- Positions of a range-map list evaluate to the mapped function. -/
theorem range_map_getD {α : Type} (n : ℕ) (f : ℕ → α) (d : α) (i : ℕ)
    (hi : i < n) : ((List.range n).map f).getD i d = f i := by
  have h3 : i < ((List.range n).map f).length := by simpa
  rw [List.getD_eq_getElem _ _ h3, List.getElem_map, List.getElem_range]

/-- In-range positions of a mapped list evaluate to the mapped function,
for any defaults. -/
theorem map_getD_of_lt {α β : Type} (l : List α) (f : α → β) (d : α)
    (d2 : β) (i : ℕ) (hi : i < l.length) :
    (l.map f).getD i d2 = f (l.getD i d) := by
  have h2 : i < (l.map f).length := by simpa
  rw [List.getD_eq_getElem _ _ h2, List.getElem_map,
    List.getD_eq_getElem _ _ hi]

/-- C6: when `t > 0`, every row `i` of the enriched chain is aligned with
row `i` of the merged sorted chain: it keeps that row's strike and LTPs,
its call (put) IV is computed from that row's own call (put) LTP — zero
when the LTP is not positive — and its call (put) Greeks are exactly row
`i` of the Greeks batch output for the chain's strike column paired with
the just-computed IV column divided by 100.  The hypotheses require
per-side-distinct strikes (the ChainRow invariant); the raw rows are
otherwise arbitrary, in any input order. -/
theorem C6_enrichment_alignment (opt : Optimizer) (P : RealPrims)
    (rows : List RawQuote) (spot t : ℚ) (ht : 0 < t)
    (hcall : (((callsOf rows).map RawQuote.strike)).Nodup)
    (hput : (((putsOf rows).map RawQuote.strike)).Nodup) :
    (enrichChain opt P rows spot t).length = (buildChain rows).length ∧
    ∀ i, i < (buildChain rows).length →
      (enrichChain opt P rows spot t).getD i er0 =
        { strike := ((buildChain rows).getD i mr0).strike
          ltp_call := ((buildChain rows).getD i mr0).ltp_call
          ltp_put := ((buildChain rows).getD i mr0).ltp_put
          callIV := if 0 < ((buildChain rows).getD i mr0).ltp_call then
              calculate_iv opt P "Call" spot
                ((buildChain rows).getD i mr0).strike
                ((buildChain rows).getD i mr0).ltp_call t (7/100) * 100
            else 0
          putIV := if 0 < ((buildChain rows).getD i mr0).ltp_put then
              calculate_iv opt P "Put" spot
                ((buildChain rows).getD i mr0).strike
                ((buildChain rows).getD i mr0).ltp_put t (7/100) * 100
            else 0
          callG := (calculate_greeks_vectorized P
              ((callIVs opt P rows spot t).map (· / 100)) "Call" spot
              ((buildChain rows).map MergedRow.strike) t (7/100)).getD i
              GreekRow.zero
          putG := (calculate_greeks_vectorized P
              ((putIVs opt P rows spot t).map (· / 100)) "Put" spot
              ((buildChain rows).map MergedRow.strike) t (7/100)).getD i
              GreekRow.zero } := by
  constructor
  · simp [enrichChain, if_pos ht]
  · intro i hi
    have hA : (callIVs opt P rows spot t).getD i 0 =
        (if 0 < ((buildChain rows).getD i mr0).ltp_call then
          calculate_iv opt P "Call" spot
            ((buildChain rows).getD i mr0).strike
            ((buildChain rows).getD i mr0).ltp_call t (7/100) * 100
        else 0) := by
      unfold callIVs
      exact map_getD_of_lt (buildChain rows) _ mr0 0 i hi
    have hB : (putIVs opt P rows spot t).getD i 0 =
        (if 0 < ((buildChain rows).getD i mr0).ltp_put then
          calculate_iv opt P "Put" spot
            ((buildChain rows).getD i mr0).strike
            ((buildChain rows).getD i mr0).ltp_put t (7/100) * 100
        else 0) := by
      unfold putIVs
      exact map_getD_of_lt (buildChain rows) _ mr0 0 i hi
    unfold enrichChain
    rw [if_pos ht, range_map_getD _ _ _ i hi, hA, hB]

/-- Concrete raw rows for the C6 witness: one call quote with a positive
LTP and one put quote with a missing LTP, at the same strike. -/
def rows0 : List RawQuote := [⟨100, "Call", some 5⟩, ⟨100, "Put", none⟩]

/-- Witness for C6: row 0 of the enriched chain built from `rows0`. -/
theorem C6_enrichment_alignment_w :
    (enrichChain opt0 P0 rows0 100 1).getD 0 er0 =
      { strike := ((buildChain rows0).getD 0 mr0).strike
        ltp_call := ((buildChain rows0).getD 0 mr0).ltp_call
        ltp_put := ((buildChain rows0).getD 0 mr0).ltp_put
        callIV := if 0 < ((buildChain rows0).getD 0 mr0).ltp_call then
            calculate_iv opt0 P0 "Call" 100
              ((buildChain rows0).getD 0 mr0).strike
              ((buildChain rows0).getD 0 mr0).ltp_call 1 (7/100) * 100
          else 0
        putIV := if 0 < ((buildChain rows0).getD 0 mr0).ltp_put then
            calculate_iv opt0 P0 "Put" 100
              ((buildChain rows0).getD 0 mr0).strike
              ((buildChain rows0).getD 0 mr0).ltp_put 1 (7/100) * 100
          else 0
        callG := (calculate_greeks_vectorized P0
            ((callIVs opt0 P0 rows0 100 1).map (· / 100)) "Call" 100
            ((buildChain rows0).map MergedRow.strike) 1 (7/100)).getD 0
            GreekRow.zero
        putG := (calculate_greeks_vectorized P0
            ((putIVs opt0 P0 rows0 100 1).map (· / 100)) "Put" 100
            ((buildChain rows0).map MergedRow.strike) 1 (7/100)).getD 0
            GreekRow.zero } :=
  (C6_enrichment_alignment opt0 P0 rows0 100 1 (by decide) (by decide)
    (by decide)).2 0 (by decide)

/-- Concrete raw rows for the C8 counterexample: the LTP is zero or absent
on every row (one zero cell, one missing cell). -/
def rawMixed : List RawQuote := [⟨100, "Call", some 0⟩, ⟨100, "Put", none⟩]

/-- C8 counterexample: on `rawMixed` the LTP column is zero-or-absent
across all rows, yet validation passes — `isna().all()` is false because
one cell is 0, and `(ltp == 0).all()` is false because the NaN cell
compares unequal to 0 — so the aggregator returns a nonempty chain,
refuting the claim as stated. -/
theorem C8_validation_counterexample :
    process_and_analyze opt0 P0 rawMixed 100 0 ≠ [] := by decide

/-- C8 amended: the aggregator returns an empty chain when the LTP cells
are entirely absent (covering the column missing from all rows, which
normalization zero-fills) or entirely zero; a mixture of zero and absent
cells, by contrast, passes validation.  The failure path is taken before
any IV or Greeks computation. -/
theorem C8_ltp_validation (opt : Optimizer) (P : RealPrims)
    (rows : List RawQuote) (spot t : ℚ)
    (h : (∀ q ∈ rows, q.ltp = none) ∨ (∀ q ∈ rows, q.ltp = some 0)) :
    process_and_analyze opt P rows spot t = [] := by
  unfold process_and_analyze
  by_cases hr : rows = []
  · rw [if_pos hr]
  · rw [if_neg hr]
    have hval : validateLtp (normalizeLtp rows) = false := by
      rcases h with hall | hall
      · have hany : (rows.any fun q => q.ltp.isSome) = false := by
          rw [List.any_eq_false]
          intro q hq
          rw [hall q hq]
          simp
        have hnorm : normalizeLtp rows =
            rows.map (fun q => { q with ltp := some 0 }) := by
          unfold normalizeLtp
          rw [hany]
          simp
        rw [hnorm]
        unfold validateLtp
        have hA : ((rows.map fun q => { q with ltp := some 0 }).all
            fun q => decide (q.ltp = some 0)) = true := by
          rw [List.all_eq_true]
          intro q hq
          rw [List.mem_map] at hq
          rcases hq with ⟨a, _, rfl⟩
          simp
        rw [hA]
        simp
      · obtain ⟨q0, hq0⟩ : ∃ q, q ∈ rows := by
          cases rows with
          | nil => exact absurd rfl hr
          | cons a l => exact ⟨a, List.mem_cons_self a l⟩
        have hany : (rows.any fun q => q.ltp.isSome) = true := by
          rw [List.any_eq_true]
          exact ⟨q0, hq0, by rw [hall q0 hq0]; rfl⟩
        have hnorm : normalizeLtp rows = rows := by
          unfold normalizeLtp
          rw [hany]
          simp
        rw [hnorm]
        unfold validateLtp
        have hA : (rows.all fun q => decide (q.ltp = some 0)) = true := by
          rw [List.all_eq_true]
          intro q hq
          rw [hall q hq]
          simp
        rw [hA]
        simp
    rw [hval]
    simp

/-- Witness for C8 (amended): a single row with a missing LTP cell. -/
theorem C8_ltp_validation_w :
    process_and_analyze opt0 P0 [⟨100, "Call", (none : Option ℚ)⟩] 100 0 = [] :=
  C8_ltp_validation opt0 P0 [⟨100, "Call", none⟩] 100 0 (Or.inl (by decide))
